import Mathlib

/-!
# Verification of the tcstruct library

A shallow embedding of the tcstruct Python library (`src/tcstruct/__init__.py`):
C-type structures declared through type annotations on subclasses of
`ctypes.Structure`.  The embedding covers

* the primitive type catalog (`uint8_t` … `float64_t`, with `_bitwidth`);
* the metaclass field resolution (`TCStructMeta.__new__`): the nearest
  ancestor's `_fields_` list is copied with `list(...)` and extended with the
  annotation entries whose names do not start with an underscore;
* byte-order handling (`gettype` swaps a field's ctype exactly when the
  resolved `_byteorder` is not `None` and differs from `sys.byteorder`);
* record construction (`TCStruct.__init__`, which zips positional arguments
  with field names, rejects positional/keyword overlap, and then performs the
  `ctypes.Structure` keyword initialization: each named field is assigned with
  wraparound truncation, all other fields stay zero);
* the codec (`to_bytes` / `from_bytes`, i.e. `bytes(obj)` and
  `cls.from_buffer_copy(data)` over the resolved ctypes memory layout).

The layout, truncation and buffer rules implemented by `ctypes` itself are
modelled from its documented behavior as exercised by the repository's test
suite (`src/tests/test_tcstruct.py`): natural alignment is the element width,
`_pack_ = 1` caps every alignment at one byte, total size is rounded up to the
maximal field alignment, integer assignment wraps modulo the field width,
missing constructor arguments leave the zero-initialized memory untouched, and
`from_buffer_copy` requires at least `sizeof` bytes, ignoring any excess.
Machine values are modelled as unsigned bit patterns (`Nat` reduced modulo the
field width); float fields are handled at the level of their IEEE bit
patterns, which is all the codec ever inspects.
-/

/-- Byte orders, as in `sys.byteorder` and the `_byteorder` class attribute. -/
inductive ByteOrder
  | little
  | big
deriving DecidableEq, Repr

/-- The opposite byte order (what `ctypes._endian._other_endian` switches to). -/
def ByteOrder.other : ByteOrder → ByteOrder
  | .little => .big
  | .big => .little

/-- The primitive type catalog of the library (classes `uint8_t` … `float64_t`). -/
inductive PrimKind
  | uint8_t
  | uint16_t
  | uint32_t
  | uint64_t
  | sint8_t
  | sint16_t
  | sint32_t
  | sint64_t
  | float32_t
  | float64_t
deriving DecidableEq, Repr

/-- The `_bitwidth` class attribute of each primitive type. -/
def PrimKind.bitwidth : PrimKind → Nat
  | .uint8_t | .sint8_t => 8
  | .uint16_t | .sint16_t => 16
  | .uint32_t | .sint32_t | .float32_t => 32
  | .uint64_t | .sint64_t | .float64_t => 64

/-- Byte size of a primitive, `self._bitwidth // 8` in the source. -/
def PrimKind.size (k : PrimKind) : Nat := k.bitwidth / 8

/-- Whether the primitive is an integer kind (subclass of `tcstruct_int`). -/
def PrimKind.isInt : PrimKind → Bool
  | .float32_t | .float64_t => false
  | _ => true

/-- A field's type: a scalar primitive, or a fixed-count ctypes array
(`x._ctype * x._array`, produced by `uint8_t[4]`-style subscripting). -/
inductive FieldType
  | scalar (k : PrimKind)
  | array (k : PrimKind) (n : Nat)
deriving DecidableEq, Repr

/-- The element primitive of a field type. -/
def FieldType.elemKind : FieldType → PrimKind
  | .scalar k => k
  | .array k _ => k

/-- Byte width of one element of the field. -/
def FieldType.elemSize (t : FieldType) : Nat := t.elemKind.size

/-- Number of elements stored for the field (1 for scalars). -/
def FieldType.count : FieldType → Nat
  | .scalar _ => 1
  | .array _ n => n

/-- Total byte size of the field, as `ctypes.sizeof` computes it. -/
def FieldType.size (t : FieldType) : Nat := t.count * t.elemSize

/-- ctypes alignment of the field: the element width, capped at 1 under
`_pack_ = 1`. -/
def FieldType.alignment (t : FieldType) (packed : Bool) : Nat :=
  if packed then 1 else t.elemSize

/-- One entry of a `_fields_` list: a name and a ctype. -/
structure FieldSpec where
  name : String
  type : FieldType
deriving DecidableEq, Repr

/-- A resolved struct class: its `_fields_` list, its resolved `_byteorder`
attribute, and whether `_pack_ = 1` is in effect. -/
structure Schema where
  fields : List FieldSpec
  byteorder : Option ByteOrder
  packed : Bool
deriving DecidableEq, Repr

/-- The ctypes of the schema's fields, in declaration order. -/
def Schema.fieldTypes (s : Schema) : List FieldType := s.fields.map FieldSpec.type

/-- The names of the schema's fields, in declaration order. -/
def Schema.fieldNames (s : Schema) : List String := s.fields.map FieldSpec.name

/-- Round `pos` up to the next multiple of `a` (ctypes field alignment). -/
def alignUp (pos a : Nat) : Nat := (pos + a - 1) / a * a

/-- End position after laying out the given field types starting at `pos`. -/
def layoutEnd (packed : Bool) : Nat → List FieldType → Nat
  | pos, [] => pos
  | pos, t :: rest => layoutEnd packed (alignUp pos (t.alignment packed) + t.size) rest

/-- Byte offsets of the given field types laid out starting at `pos`. -/
def offsetsFrom (packed : Bool) : Nat → List FieldType → List Nat
  | _, [] => []
  | pos, t :: rest =>
      alignUp pos (t.alignment packed) ::
        offsetsFrom packed (alignUp pos (t.alignment packed) + t.size) rest

/-- Maximal field alignment of the struct (at least 1, as for ctypes). -/
def maxAlignment (packed : Bool) (ts : List FieldType) : Nat :=
  ts.foldr (fun t a => max (t.alignment packed) a) 1

/-- Byte offset of each field of the schema, as `ctypes` resolves them. -/
def Schema.offsets (s : Schema) : List Nat := offsetsFrom s.packed 0 s.fieldTypes

/-- `ctypes.sizeof` of the schema: the layout end rounded up to the maximal
field alignment. -/
def Schema.total_size (s : Schema) : Nat :=
  alignUp (layoutEnd s.packed 0 s.fieldTypes) (maxAlignment s.packed s.fieldTypes)

/-- Little-endian byte representation of `v` in `n` bytes. -/
def toBytesLE : Nat → Nat → List Nat
  | _, 0 => []
  | v, n + 1 => v % 256 :: toBytesLE (v / 256) n

/-- Big-endian byte representation of `v` in `n` bytes. -/
def toBytesBE : Nat → Nat → List Nat
  | _, 0 => []
  | v, n + 1 => toBytesBE (v / 256) n ++ [v % 256]

/-- Byte representation of `v` in `n` bytes under byte order `o`. -/
def toBytes (o : ByteOrder) (v n : Nat) : List Nat :=
  match o with
  | .little => toBytesLE v n
  | .big => toBytesBE v n

/-- Value of a little-endian byte sequence. -/
def fromBytesLE : List Nat → Nat
  | [] => 0
  | b :: rest => b + 256 * fromBytesLE rest

/-- Value of a byte sequence under byte order `o`. -/
def fromBytes (o : ByteOrder) (bs : List Nat) : Nat :=
  match o with
  | .little => fromBytesLE bs
  | .big => fromBytesLE bs.reverse

/-- The wire byte order of a field, mirroring `gettype` / `TCStructMeta`:
`swap = byteorder is not None and sys.byteorder != byteorder`, and a swapped
ctype stores bytes in the opposite of the host order. -/
def effOrder (sys : ByteOrder) (declared : Option ByteOrder) : ByteOrder :=
  match declared with
  | none => sys
  | some bo => if sys ≠ bo then sys.other else sys

/-- The wire byte order used for the schema's fields on a host with byte
order `sys`. -/
def Schema.order (s : Schema) (sys : ByteOrder) : ByteOrder := effOrder sys s.byteorder

/-- The stored contents of one field: the unsigned bit pattern of each of its
elements (scalars store exactly one pattern). -/
abbrev StoredValue := List Nat

/-- The stored field contents of a record, parallel to the schema's fields. -/
abbrev Record := List StoredValue

/-- Encode the element patterns of one field, each in `w` bytes. -/
def encodeElems (o : ByteOrder) (w : Nat) : List Nat → List Nat
  | [] => []
  | p :: rest => toBytes o p w ++ encodeElems o w rest

/-- Read `n` elements of `w` bytes each from the front of `bs`. -/
def readElems (o : ByteOrder) (w : Nat) : Nat → List Nat → List Nat
  | 0, _ => []
  | n + 1, bs => fromBytes o (bs.take w) :: readElems o w n (bs.drop w)

/-- Decode the stored value of a field of type `t` from its byte span. -/
def decodeValue (o : ByteOrder) (t : FieldType) (bs : List Nat) : StoredValue :=
  readElems o t.elemSize t.count bs

/-- Lay out and encode fields starting at position `pos`, zero-filling the
alignment padding in front of each field (ctypes memory is zero-initialized
and only field bytes are ever written). -/
def encodeFields (o : ByteOrder) (packed : Bool) : Nat → List (FieldType × StoredValue) → List Nat
  | _, [] => []
  | pos, (t, ps) :: rest =>
      let off := alignUp pos (t.alignment packed)
      List.replicate (off - pos) 0 ++ encodeElems o t.elemSize ps ++
        encodeFields o packed (off + t.size) rest

/-- Decode every field of the given types from `data`, reading each field's
span at its resolved offset. -/
def decodeFields (o : ByteOrder) (packed : Bool) (data : List Nat) :
    Nat → List FieldType → Record
  | _, [] => []
  | pos, t :: rest =>
      let off := alignUp pos (t.alignment packed)
      decodeValue o t ((data.drop off).take t.size) ::
        decodeFields o packed data (off + t.size) rest

/-- `bytes(obj)` / `TCStruct.to_bytes`: the record's resolved memory image,
field bytes at their offsets and zero everywhere else. -/
def to_bytes (sys : ByteOrder) (s : Schema) (r : Record) : List Nat :=
  encodeFields (s.order sys) s.packed 0 (s.fieldTypes.zip r) ++
    List.replicate (s.total_size - layoutEnd s.packed 0 s.fieldTypes) 0

/-- Decode failure: `from_buffer_copy` raises when the buffer is smaller than
`sizeof(cls)`. -/
inductive DecodeError
  | bufferTooShort
deriving DecidableEq, Repr

instance {e a : Type} [DecidableEq e] [DecidableEq a] : DecidableEq (Except e a)
  | .ok x, .ok y => if h : x = y then .isTrue (by rw [h]) else .isFalse (by simp [h])
  | .error x, .error y => if h : x = y then .isTrue (by rw [h]) else .isFalse (by simp [h])
  | .ok _, .error _ => .isFalse (by simp)
  | .error _, .ok _ => .isFalse (by simp)

/-- `TCStruct.from_bytes` = `cls.from_buffer_copy(data)`: requires at least
`total_size` bytes and reads every field from the copied memory image. -/
def from_bytes (sys : ByteOrder) (s : Schema) (data : List Nat) : Except DecodeError Record :=
  if data.length < s.total_size then .error .bufferTooShort
  else .ok (decodeFields (s.order sys) s.packed data 0 s.fieldTypes)

/-- A value supplied for one scalar slot: a Python `int`, or a Python `float`
given by the IEEE bit pattern of the declared width. -/
inductive ScalarInput
  | intVal (v : Int)
  | floatBits (p : Nat)
deriving DecidableEq, Repr

/-- A constructor argument: a scalar, or a tuple for an array field. -/
inductive InputValue
  | scalar (x : ScalarInput)
  | tuple (xs : List ScalarInput)
deriving DecidableEq, Repr

/-- ctypes scalar assignment: integer kinds wrap the supplied `int` modulo the
field width (two's-complement truncation); float kinds store the supplied bit
pattern; a shape mismatch raises `TypeError`. -/
def storeScalar (k : PrimKind) (x : ScalarInput) : Option Nat :=
  match k.isInt, x with
  | true, .intVal v => some (v % (256 ^ k.size : Int)).toNat
  | false, .floatBits p => some (p % 256 ^ k.size)
  | _, _ => none

/-- ctypes assignment of the elements of an array field, one by one. -/
def storeElems (k : PrimKind) : List ScalarInput → Option (List Nat)
  | [] => some []
  | x :: xs =>
      match storeScalar k x, storeElems k xs with
      | some p, some ps => some (p :: ps)
      | _, _ => none

/-- ctypes assignment of one field: arrays accept a tuple of at most `n`
elements, missing trailing elements keeping their zero contents. -/
def storeValue (t : FieldType) (iv : InputValue) : Option StoredValue :=
  match t, iv with
  | .scalar k, .scalar x => (storeScalar k x).map fun p => [p]
  | .array k n, .tuple xs =>
      if xs.length ≤ n then
        (storeElems k xs).map fun ps => ps ++ List.replicate (n - xs.length) 0
      else none
  | _, _ => none

/-- The zero-initialized contents of a field (fresh ctypes memory). -/
def zeroValue (t : FieldType) : StoredValue := List.replicate t.count 0

/-- Construction failure: positional/keyword overlap (`TypeError: got multiple
values`), or a value whose shape ctypes rejects on assignment. -/
inductive CtorError
  | duplicateArgument (name : String)
  | typeMismatch (name : String)
deriving DecidableEq, Repr

/-- The value bound to `name` in the merged argument dict; as in a Python
dict built by `update`, the last binding wins. -/
def lookupArg (amap : List (String × InputValue)) (name : String) : Option InputValue :=
  (amap.reverse.find? fun kv => kv.1 = name).map Prod.snd

/-- The constructed contents of one field: fields whose name is bound in the
argument dict are assigned through their descriptor (the last same-named field
shadows earlier ones), every other field keeps its zero contents. -/
def fieldValue (amap : List (String × InputValue)) (f : FieldSpec) (shadowed : Bool) :
    Except CtorError StoredValue :=
  if shadowed then .ok (zeroValue f.type)
  else
    match lookupArg amap f.name with
    | none => .ok (zeroValue f.type)
    | some iv =>
        match storeValue f.type iv with
        | some sv => .ok sv
        | none => .error (.typeMismatch f.name)

/-- The ctypes keyword initialization over zero memory: each field of the
class receives its constructed contents. -/
def assignFields (amap : List (String × InputValue)) : List FieldSpec → Except CtorError Record
  | [] => .ok []
  | f :: rest =>
      match fieldValue amap f (rest.any fun g => g.name = f.name) with
      | .error e => .error e
      | .ok v =>
          match assignFields amap rest with
          | .error e => .error e
          | .ok vs => .ok (v :: vs)

/-- `TCStruct.__init__`: zip positional arguments with the field names, raise
on positional/keyword overlap, then run the ctypes keyword initialization on
the merged argument dict. -/
def construct (s : Schema) (args : List InputValue) (kwargs : List (String × InputValue)) :
    Except CtorError Record :=
  match kwargs.find? (fun kv => (s.fieldNames.zip args).any fun pv => pv.1 = kv.1) with
  | some kv => .error (.duplicateArgument kv.1)
  | none => assignFields (s.fieldNames.zip args ++ kwargs) s.fields

/-- `aname.startswith('_')`: the name's first character is an underscore. -/
def isUnderscoreName (name : String) : Bool :=
  match name.data with
  | [] => false
  | c :: _ => c = '_'

/-- `TCStructMeta.__new__` lines 172–197: the resolved `_fields_` list is the
(copied) ancestor list followed by the annotation entries whose names do not
start with an underscore. -/
def resolveFields (fields_base : List FieldSpec) (annotations : List FieldSpec) : List FieldSpec :=
  fields_base ++ annotations.filter fun f => ¬ isUnderscoreName f.name

/-- Defining a subclass: resolve the field list from the ancestor schema and
the new annotations; `_byteorder` falls back to the nearest ancestor's. -/
def defineStruct (base : Schema) (annotations : List FieldSpec) (ownOrder : Option ByteOrder)
    (ownPacked : Bool) : Schema :=
  { fields := resolveFields base.fields annotations
    byteorder := ownOrder.orElse fun _ => base.byteorder
    packed := ownPacked }

/-- A store of Python list objects (each class's `_fields_` list), indexed by
allocation order: the explicit-state model of the metaclass's list handling. -/
structure FieldStore where
  lists : List (List FieldSpec)
deriving Repr

/-- The contents of the list object `r`. -/
def FieldStore.read (st : FieldStore) (r : Nat) : List FieldSpec := st.lists.getD r []

/-- Allocate a fresh list object with the given contents (`list(...)`). -/
def FieldStore.alloc (st : FieldStore) (l : List FieldSpec) : FieldStore × Nat :=
  ({ lists := st.lists ++ [l] }, st.lists.length)

/-- Overwrite the contents of list object `r` in place. -/
def FieldStore.writeAt (st : FieldStore) (r : Nat) (l : List FieldSpec) : FieldStore :=
  { lists := st.lists.set r l }

/-- `TCStructMeta.__new__` on the list store: `fields_base = list(b._fields_)`
allocates a fresh copy of the ancestor's list, and `fields.extend(...)`
mutates that fresh object in place, appending the annotation entries. -/
def defineDerivedFields (st : FieldStore) (baseRef : Nat) (anns : List FieldSpec) :
    FieldStore × Nat :=
  let copied := st.read baseRef
  let allocated := st.alloc copied
  let st1 := allocated.1
  let r := allocated.2
  (st1.writeAt r (st1.read r ++ anns.filter fun f => ¬ isUnderscoreName f.name), r)

/-- Well-formed stored contents of a field: one pattern per element, each
within the element width. ctypes memory always satisfies this. -/
def ValueWF (t : FieldType) (ps : StoredValue) : Prop :=
  ps.length = t.count ∧ ∀ p ∈ ps, p < 256 ^ t.elemSize

/-- Well-formed pairs of field type and stored contents. -/
def PairsWF (l : List (FieldType × StoredValue)) : Prop :=
  ∀ pair ∈ l, ValueWF pair.1 pair.2

/-- Well-formed record for a schema: one stored value per field, each within
its field's width. -/
def RecordWF (s : Schema) (r : Record) : Prop :=
  r.length = s.fields.length ∧ PairsWF (s.fieldTypes.zip r)

instance (t : FieldType) (ps : StoredValue) : Decidable (ValueWF t ps) := by
  unfold ValueWF
  infer_instance

instance (l : List (FieldType × StoredValue)) : Decidable (PairsWF l) := by
  unfold PairsWF
  infer_instance

instance (s : Schema) (r : Record) : Decidable (RecordWF s r) := by
  unfold RecordWF
  infer_instance

/-- The test schema of the repository's suite: `{magicnumber: uint32_t,
version: uint8_t[4], value: uint16_t, fvalue: float32_t, dvalue: float64_t}`
declared little-endian. -/
def testSchema (packed : Bool) : Schema :=
  { fields := [⟨"magicnumber", .scalar .uint32_t⟩,
               ⟨"version", .array .uint8_t 4⟩,
               ⟨"value", .scalar .uint16_t⟩,
               ⟨"fvalue", .scalar .float32_t⟩,
               ⟨"dvalue", .scalar .float64_t⟩],
    byteorder := some .little
    packed := packed }

/-- A single `value: uint16_t` field under a declared byte order. -/
def valueSchema (bo : Option ByteOrder) : Schema :=
  { fields := [⟨"value", .scalar .uint16_t⟩], byteorder := bo, packed := false }

/-- A single `x: uint8_t` field, native order. -/
def oneByteSchema : Schema :=
  { fields := [⟨"x", .scalar .uint8_t⟩], byteorder := none, packed := false }

/-- A schema whose merged field sequence holds two fields named `a`. -/
def dupNameSchema : Schema :=
  defineStruct { fields := [⟨"a", .scalar .uint8_t⟩], byteorder := none, packed := false }
    [⟨"a", .scalar .uint8_t⟩] none false

theorem PrimKind.size_pos (k : PrimKind) : 0 < k.size := by
  cases k <;> decide

theorem PrimKind.pow256_size (k : PrimKind) : (256 : Nat) ^ k.size = 2 ^ k.bitwidth := by
  cases k <;> decide

theorem FieldType.elemSize_pos (t : FieldType) : 0 < t.elemSize :=
  t.elemKind.size_pos

theorem FieldType.alignment_pos (t : FieldType) (packed : Bool) : 0 < t.alignment packed := by
  unfold FieldType.alignment
  split
  · exact Nat.one_pos
  · exact t.elemSize_pos

theorem alignUp_le (pos : Nat) {a : Nat} (ha : 0 < a) : pos ≤ alignUp pos a := by
  unfold alignUp
  have h1 := Nat.div_add_mod' (pos + a - 1) a
  have h2 : (pos + a - 1) % a < a := Nat.mod_lt _ ha
  omega

theorem alignUp_one (pos : Nat) : alignUp pos 1 = pos := by
  unfold alignUp
  omega

theorem layoutEnd_le (packed : Bool) (pos : Nat) (ts : List FieldType) :
    pos ≤ layoutEnd packed pos ts := by
  induction ts generalizing pos with
  | nil => exact Nat.le_refl pos
  | cons t rest ih =>
      have h1 : pos ≤ alignUp pos (t.alignment packed) := alignUp_le pos (t.alignment_pos packed)
      have h2 := ih (alignUp pos (t.alignment packed) + t.size)
      calc pos ≤ alignUp pos (t.alignment packed) + t.size := by omega
        _ ≤ _ := h2

theorem maxAlignment_pos (packed : Bool) (ts : List FieldType) :
    0 < maxAlignment packed ts := by
  induction ts with
  | nil => exact Nat.one_pos
  | cons t rest ih =>
      simp only [maxAlignment, List.foldr] at ih ⊢
      omega

theorem layoutEnd_le_total (s : Schema) :
    layoutEnd s.packed 0 s.fieldTypes ≤ s.total_size :=
  alignUp_le _ (maxAlignment_pos s.packed s.fieldTypes)

theorem maxAlignment_packed (ts : List FieldType) : maxAlignment true ts = 1 := by
  induction ts with
  | nil => rfl
  | cons t rest ih => simp [maxAlignment, List.foldr, FieldType.alignment] at ih ⊢; omega

theorem toBytesLE_length (n : Nat) : ∀ v, (toBytesLE v n).length = n := by
  induction n with
  | zero => intro v; rfl
  | succ m ih => intro v; simp [toBytesLE, ih]

theorem toBytesBE_length (n : Nat) : ∀ v, (toBytesBE v n).length = n := by
  induction n with
  | zero => intro v; rfl
  | succ m ih => intro v; simp [toBytesBE, ih]

theorem toBytes_length (o : ByteOrder) (v n : Nat) : (toBytes o v n).length = n := by
  cases o with
  | little => exact toBytesLE_length n v
  | big => exact toBytesBE_length n v

theorem toBytesBE_eq_reverse (n : Nat) : ∀ v, toBytesBE v n = (toBytesLE v n).reverse := by
  induction n with
  | zero => intro v; rfl
  | succ m ih => intro v; simp [toBytesBE, toBytesLE, ih]

theorem fromBytesLE_toBytesLE (n : Nat) : ∀ v, v < 256 ^ n → fromBytesLE (toBytesLE v n) = v := by
  induction n with
  | zero =>
      intro v hv
      simp [Nat.pow_zero] at hv
      simp [toBytesLE, fromBytesLE, hv]
  | succ m ih =>
      intro v hv
      have hdiv : v / 256 < 256 ^ m := by
        rw [Nat.div_lt_iff_lt_mul (by omega : 0 < 256)]
        rw [Nat.pow_succ] at hv
        omega
      have hmod := Nat.mod_lt v (by omega : 0 < 256)
      have h := ih (v / 256) hdiv
      simp [toBytesLE, fromBytesLE, h]
      omega

theorem fromBytes_toBytes (o : ByteOrder) (n v : Nat) (hv : v < 256 ^ n) :
    fromBytes o (toBytes o v n) = v := by
  cases o with
  | little => exact fromBytesLE_toBytesLE n v hv
  | big =>
      simp only [fromBytes, toBytes, toBytesBE_eq_reverse, List.reverse_reverse]
      exact fromBytesLE_toBytesLE n v hv

theorem encodeElems_length (o : ByteOrder) (w : Nat) (ps : List Nat) :
    (encodeElems o w ps).length = ps.length * w := by
  induction ps with
  | nil => simp [encodeElems]
  | cons p rest ih => simp [encodeElems, toBytes_length, ih]; ring

theorem readElems_encodeElems (o : ByteOrder) (w : Nat) (ps : List Nat)
    (h : ∀ p ∈ ps, p < 256 ^ w) :
    ∀ junk, readElems o w ps.length (encodeElems o w ps ++ junk) = ps := by
  induction ps with
  | nil => intro junk; rfl
  | cons p rest ih =>
      intro junk
      have hp : p < 256 ^ w := h p (List.mem_cons_self p rest)
      have hlen : (toBytes o p w).length = w := toBytes_length o p w
      simp only [encodeElems, List.length_cons, readElems, List.append_assoc]
      have htake : (toBytes o p w ++ (encodeElems o w rest ++ junk)).take w = toBytes o p w :=
        List.take_left' hlen
      have hdrop : (toBytes o p w ++ (encodeElems o w rest ++ junk)).drop w =
          encodeElems o w rest ++ junk :=
        List.drop_left' hlen
      rw [htake, hdrop, fromBytes_toBytes o w p hp, ih (fun q hq => h q (List.mem_cons_of_mem p hq)) junk]

theorem encodeFields_length (o : ByteOrder) (packed : Bool) (l : List (FieldType × StoredValue))
    (hWF : PairsWF l) :
    ∀ pos, (encodeFields o packed pos l).length + pos = layoutEnd packed pos (l.map Prod.fst) := by
  induction l with
  | nil => intro pos; simp [encodeFields, layoutEnd]
  | cons pair rest ih =>
      intro pos
      obtain ⟨t, ps⟩ := pair
      have hv : ValueWF t ps := hWF (t, ps) (List.mem_cons_self _ _)
      have hlen : ps.length = t.count := hv.1
      have halign : pos ≤ alignUp pos (t.alignment packed) :=
        alignUp_le pos (t.alignment_pos packed)
      have hrest := ih (fun q hq => hWF q (List.mem_cons_of_mem _ hq))
        (alignUp pos (t.alignment packed) + t.size)
      have hend := layoutEnd_le packed (alignUp pos (t.alignment packed) + t.size)
        (rest.map Prod.fst)
      simp only [encodeFields, List.map_cons, layoutEnd, List.length_append,
        List.length_replicate, encodeElems_length, hlen]
      have hsz : t.count * t.elemSize = t.size := rfl
      rw [hsz]
      omega

theorem decodeFields_encodeFields (o : ByteOrder) (packed : Bool)
    (l : List (FieldType × StoredValue)) (hWF : PairsWF l) :
    ∀ pos pre suf, pre.length = pos →
      decodeFields o packed (pre ++ encodeFields o packed pos l ++ suf) pos (l.map Prod.fst) =
        l.map Prod.snd := by
  induction l with
  | nil => intro pos pre suf hpre; simp [encodeFields, decodeFields]
  | cons pair rest ih =>
      intro pos pre suf hpre
      obtain ⟨t, ps⟩ := pair
      have hv : ValueWF t ps := hWF (t, ps) (List.mem_cons_self _ _)
      have hWFrest : PairsWF rest := fun q hq => hWF q (List.mem_cons_of_mem _ hq)
      have halign : pos ≤ alignUp pos (t.alignment packed) :=
        alignUp_le pos (t.alignment_pos packed)
      set off := alignUp pos (t.alignment packed) with hoff
      have henclen : (encodeElems o t.elemSize ps).length = t.size := by
        rw [encodeElems_length, hv.1, FieldType.size]
      have hdata : pre ++ encodeFields o packed pos ((t, ps) :: rest) ++ suf =
          (pre ++ List.replicate (off - pos) 0) ++ (encodeElems o t.elemSize ps ++
            (encodeFields o packed (off + t.size) rest ++ suf)) := by
        simp only [encodeFields, ← hoff, List.append_assoc]
      have hprelen : (pre ++ List.replicate (off - pos) 0).length = off := by
        simp [hpre]
        omega
      simp only [List.map_cons, decodeFields, ← hoff]
      rw [hdata]
      have hdrop : ((pre ++ List.replicate (off - pos) 0) ++ (encodeElems o t.elemSize ps ++
          (encodeFields o packed (off + t.size) rest ++ suf))).drop off =
          encodeElems o t.elemSize ps ++ (encodeFields o packed (off + t.size) rest ++ suf) :=
        List.drop_left' hprelen
      have htake : (encodeElems o t.elemSize ps ++
          (encodeFields o packed (off + t.size) rest ++ suf)).take t.size =
          encodeElems o t.elemSize ps :=
        List.take_left' henclen
      rw [hdrop, htake]
      have hval : decodeValue o t (encodeElems o t.elemSize ps) = ps := by
        have h0 := readElems_encodeElems o t.elemSize ps hv.2 []
        rw [List.append_nil] at h0
        rw [decodeValue, ← hv.1, h0]
      rw [hval]
      have hlen2 : ((pre ++ List.replicate (off - pos) 0) ++ encodeElems o t.elemSize ps).length
          = off + t.size := by
        simp only [List.length_append, List.length_replicate, henclen, hpre]
        omega
      have hrec := ih hWFrest (off + t.size)
        ((pre ++ List.replicate (off - pos) 0) ++ encodeElems o t.elemSize ps) suf hlen2
      simp only [List.append_assoc] at hrec ⊢
      rw [hrec]

theorem zip_map_fst (s : Schema) (r : Record) (h : r.length = s.fields.length) :
    (s.fieldTypes.zip r).map Prod.fst = s.fieldTypes := by
  apply List.map_fst_zip
  simp [Schema.fieldTypes, h]

theorem zip_map_snd (s : Schema) (r : Record) (h : r.length = s.fields.length) :
    (s.fieldTypes.zip r).map Prod.snd = r := by
  apply List.map_snd_zip
  simp [Schema.fieldTypes, h]

theorem to_bytes_length (sys : ByteOrder) (s : Schema) (r : Record) (hWF : RecordWF s r) :
    (to_bytes sys s r).length = s.total_size := by
  have hbody := encodeFields_length (s.order sys) s.packed (s.fieldTypes.zip r) hWF.2 0
  rw [zip_map_fst s r hWF.1] at hbody
  have hend := layoutEnd_le_total s
  simp only [to_bytes, List.length_append, List.length_replicate]
  omega

theorem from_bytes_to_bytes (sys : ByteOrder) (s : Schema) (r : Record) (hWF : RecordWF s r) :
    from_bytes sys s (to_bytes sys s r) = .ok r := by
  have hlen := to_bytes_length sys s r hWF
  have hmain := decodeFields_encodeFields (s.order sys) s.packed (s.fieldTypes.zip r) hWF.2
    0 [] (List.replicate (s.total_size - layoutEnd s.packed 0 s.fieldTypes) 0) rfl
  rw [zip_map_fst s r hWF.1, zip_map_snd s r hWF.1] at hmain
  simp only [List.nil_append] at hmain
  unfold from_bytes
  rw [hlen, if_neg (Nat.lt_irrefl _)]
  unfold to_bytes
  rw [hmain]

theorem storeScalar_lt (k : PrimKind) (x : ScalarInput) (p : Nat)
    (h : storeScalar k x = some p) : p < 256 ^ k.size := by
  have hm : (0:Nat) < 256 ^ k.size := Nat.pos_pow_of_pos _ (by omega)
  cases hk : k.isInt <;> cases x <;> simp only [storeScalar, hk] at h
  · exact absurd h (by simp)
  · rename_i p0
    simp only [Option.some.injEq] at h
    have h2 : p0 % 256 ^ k.size < 256 ^ k.size := Nat.mod_lt _ hm
    omega
  · rename_i v
    have hcast : ((256 ^ k.size : Nat) : Int) = (256:Int) ^ k.size := by push_cast; rfl
    have hmz : (0:Int) < (256:Int) ^ k.size := by positivity
    have h1 : (0:Int) ≤ v % (256:Int) ^ k.size := Int.emod_nonneg v (by omega)
    have h2 : v % (256:Int) ^ k.size < (256:Int) ^ k.size := Int.emod_lt_of_pos v hmz
    have hp : p = (v % (256:Int) ^ k.size).toNat := by
      simp only [Option.some.injEq] at h
      omega
    omega
  · exact absurd h (by simp)

theorem storeElems_spec (k : PrimKind) (xs : List ScalarInput) (ps : List Nat)
    (h : storeElems k xs = some ps) :
    ps.length = xs.length ∧ ∀ p ∈ ps, p < 256 ^ k.size := by
  induction xs generalizing ps with
  | nil =>
      simp only [storeElems, Option.some.injEq] at h
      subst h
      exact ⟨rfl, by simp⟩
  | cons x rest ih =>
      simp only [storeElems] at h
      cases h1 : storeScalar k x with
      | none => rw [h1] at h; exact absurd h (by simp)
      | some p =>
          cases h2 : storeElems k rest with
          | none => rw [h1, h2] at h; exact absurd h (by simp)
          | some qs =>
              rw [h1, h2] at h
              simp only [Option.some.injEq] at h
              subst h
              obtain ⟨hl, hb⟩ := ih qs h2
              refine ⟨by simp [hl], ?_⟩
              intro q hq
              rcases List.mem_cons.mp hq with hq | hq
              · subst hq; exact storeScalar_lt k x q h1
              · exact hb q hq

theorem storeValue_WF (t : FieldType) (iv : InputValue) (sv : StoredValue)
    (h : storeValue t iv = some sv) : ValueWF t sv := by
  have hm : (0:Nat) < 256 ^ t.elemSize := Nat.pos_pow_of_pos _ (by omega)
  cases t with
  | scalar k =>
      cases iv with
      | scalar x =>
          simp only [storeValue, Option.map_eq_some'] at h
          obtain ⟨p, hp, hsv⟩ := h
          subst hsv
          exact ⟨rfl, by
            intro q hq
            simp only [List.mem_singleton] at hq
            subst hq
            exact storeScalar_lt k x q hp⟩
      | tuple xs => exact absurd h (by simp [storeValue])
  | array k n =>
      cases iv with
      | scalar x => exact absurd h (by simp [storeValue])
      | tuple xs =>
          simp only [storeValue] at h
          by_cases hle : xs.length ≤ n
          · rw [if_pos hle] at h
            simp only [Option.map_eq_some'] at h
            obtain ⟨ps, hps, hsv⟩ := h
            obtain ⟨hl, hb⟩ := storeElems_spec k xs ps hps
            subst hsv
            constructor
            · simp [FieldType.count, hl]
              omega
            · intro q hq
              rcases List.mem_append.mp hq with hq | hq
              · exact hb q hq
              · rw [List.eq_of_mem_replicate hq]
                exact hm
          · rw [if_neg hle] at h
            exact absurd h (by simp)

theorem zeroValue_WF (t : FieldType) : ValueWF t (zeroValue t) := by
  refine ⟨List.length_replicate _ _, ?_⟩
  intro p hp
  rw [List.eq_of_mem_replicate hp]
  exact Nat.pos_pow_of_pos _ (by omega)

theorem fieldValue_WF (amap : List (String × InputValue)) (f : FieldSpec) (sh : Bool)
    (sv : StoredValue) (h : fieldValue amap f sh = .ok sv) : ValueWF f.type sv := by
  unfold fieldValue at h
  split at h
  · simp only [Except.ok.injEq] at h
    subst h
    exact zeroValue_WF f.type
  · split at h
    · simp only [Except.ok.injEq] at h
      subst h
      exact zeroValue_WF f.type
    · rename_i iv hiv
      split at h
      · rename_i sv0 hsv0
        simp only [Except.ok.injEq] at h
        subst h
        exact storeValue_WF f.type iv sv0 hsv0
      · exact absurd h (by simp)

theorem assignFields_WF (amap : List (String × InputValue)) (fields : List FieldSpec)
    (r : Record) (h : assignFields amap fields = .ok r) :
    r.length = fields.length ∧ PairsWF ((fields.map FieldSpec.type).zip r) := by
  induction fields generalizing r with
  | nil =>
      simp only [assignFields, Except.ok.injEq] at h
      subst h
      exact ⟨rfl, by intro pair hpair; simp at hpair⟩
  | cons f rest ih =>
      simp only [assignFields] at h
      cases h1 : fieldValue amap f (rest.any fun g => g.name = f.name) with
      | error e => rw [h1] at h; exact absurd h (by simp)
      | ok v =>
          rw [h1] at h
          cases h2 : assignFields amap rest with
          | error e => rw [h2] at h; exact absurd h (by simp)
          | ok vs =>
              rw [h2] at h
              simp only [Except.ok.injEq] at h
              subst h
              obtain ⟨hl, hWF⟩ := ih vs h2
              refine ⟨by simp [hl], ?_⟩
              intro pair hpair
              simp only [List.map_cons, List.zip_cons_cons, List.mem_cons] at hpair
              rcases hpair with hpair | hpair
              · subst hpair
                exact fieldValue_WF amap f _ v h1
              · exact hWF pair hpair

theorem construct_WF (s : Schema) (args : List InputValue)
    (kwargs : List (String × InputValue)) (r : Record)
    (h : construct s args kwargs = .ok r) : RecordWF s r := by
  unfold construct at h
  split at h
  · exact absurd h (by simp)
  · obtain ⟨hl, hWF⟩ := assignFields_WF _ s.fields r h
    exact ⟨hl, hWF⟩

/-- C1: for every schema (any declared byte order, any packing mode, any host
order) and every record constructed from field values, decoding the bytes
produced by encoding the record yields exactly the stored (truncated) field
values, and re-encoding the decoded record reproduces the same bytes. -/
theorem round_trip (sys : ByteOrder) (s : Schema) (args : List InputValue)
    (kwargs : List (String × InputValue)) (r : Record)
    (h : construct s args kwargs = .ok r) :
    from_bytes sys s (to_bytes sys s r) = .ok r ∧
      ∀ r2, from_bytes sys s (to_bytes sys s r) = .ok r2 →
        to_bytes sys s r2 = to_bytes sys s r := by
  have hWF := construct_WF s args kwargs r h
  refine ⟨from_bytes_to_bytes sys s r hWF, ?_⟩
  intro r2 h2
  rw [from_bytes_to_bytes sys s r hWF] at h2
  injection h2 with h3
  rw [h3]

theorem round_trip_witness :
    construct (valueSchema (some .little)) [.scalar (.intVal (-2))] [] = .ok [[0xFFFE]] ∧
      from_bytes .little (valueSchema (some .little))
        (to_bytes .little (valueSchema (some .little)) [[0xFFFE]]) = .ok [[0xFFFE]] :=
  ⟨by decide,
   (round_trip .little (valueSchema (some .little)) [.scalar (.intVal (-2))] [] [[0xFFFE]]
     (by decide)).1⟩

/-- C2: constructing a record stores every integer field reduced by
two's-complement wraparound to the field's declared bit width (never an
error); in particular 4000 in a `uint8_t` field stores 160 and −2 in a
`uint16_t` field stores 65534, whatever the schema's byte order. -/
theorem truncation_wraparound :
    (∀ k : PrimKind, k.isInt = true → ∀ x : Int, ∃ p : Nat,
        storeScalar k (.intVal x) = some p ∧ p < 2 ^ k.bitwidth ∧
          (2 ^ k.bitwidth : Int) ∣ (p - x)) ∧
      ∀ (bo : Option ByteOrder) (pk : Bool),
        construct ⟨[⟨"x", .scalar .uint8_t⟩], bo, pk⟩ [.scalar (.intVal 4000)] [] =
            .ok [[160]] ∧
          construct ⟨[⟨"value", .scalar .uint16_t⟩], bo, pk⟩ [.scalar (.intVal (-2))] [] =
            .ok [[65534]] := by
  constructor
  · intro k hk x
    have hmpos : (0:Int) < (256:Int) ^ k.size := by positivity
    have h0 : (0:Int) ≤ x % (256:Int) ^ k.size := Int.emod_nonneg x (by omega)
    have h1 : x % (256:Int) ^ k.size < (256:Int) ^ k.size := Int.emod_lt_of_pos x hmpos
    have hcast : (((x % (256:Int) ^ k.size).toNat : Int)) = x % (256:Int) ^ k.size :=
      Int.toNat_of_nonneg h0
    have hcast2 : ((256 ^ k.size : Nat) : Int) = (256:Int) ^ k.size := by push_cast; rfl
    refine ⟨(x % (256:Int) ^ k.size).toNat, by simp [storeScalar, hk], ?_, ?_⟩
    · rw [← PrimKind.pow256_size k]
      omega
    · have hm2 : ((2:Int) ^ k.bitwidth) = (256:Int) ^ k.size := by
        rw [← hcast2]
        exact_mod_cast (PrimKind.pow256_size k).symm
      rw [hcast, hm2, Int.emod_def]
      exact ⟨-(x / (256:Int) ^ k.size), by ring⟩
  · intro bo pk
    exact ⟨rfl, rfl⟩

theorem truncation_wraparound_witness :
    PrimKind.uint8_t.isInt = true ∧
      ∃ p : Nat, storeScalar .uint8_t (.intVal 4000) = some p ∧
        p < 2 ^ PrimKind.uint8_t.bitwidth ∧
          (2 ^ PrimKind.uint8_t.bitwidth : Int) ∣ (p - 4000) :=
  ⟨rfl, truncation_wraparound.1 .uint8_t rfl 4000⟩

theorem effOrder_of_ne (sys declared : ByteOrder) (h : declared ≠ sys) :
    effOrder sys (some declared) = sys.other := by
  show (if sys ≠ declared then sys.other else sys) = sys.other
  rw [if_pos (fun h2 => h h2.symm)]

theorem toBytes_other_reverse (sys : ByteOrder) (v n : Nat) :
    toBytes sys.other v n = (toBytes sys v n).reverse := by
  cases sys with
  | little => exact toBytesBE_eq_reverse n v
  | big =>
      simp only [ByteOrder.other, toBytes, toBytesBE_eq_reverse, List.reverse_reverse]

/-- C4: a field whose declared order differs from the host order is encoded
as the byte-reversal of its host-native representation (element-wise for
arrays, elements in order), the numeric value being preserved exactly; a
little-endian `uint16_t` holding 0xFFFE encodes as FE FF, big-endian as FF FE. -/
theorem byte_order_transform :
    (∀ sys : ByteOrder,
        to_bytes sys (valueSchema (some .little)) [[0xFFFE]] = [0xFE, 0xFF] ∧
          to_bytes sys (valueSchema (some .big)) [[0xFFFE]] = [0xFF, 0xFE]) ∧
      (∀ sys declared : ByteOrder, declared ≠ sys → ∀ v n : Nat,
        toBytes (effOrder sys (some declared)) v n = (toBytes sys v n).reverse) ∧
      (∀ sys declared : ByteOrder, declared ≠ sys → ∀ (w p : Nat) (ps : List Nat),
        encodeElems (effOrder sys (some declared)) w (p :: ps) =
          (toBytes sys p w).reverse ++ encodeElems (effOrder sys (some declared)) w ps) ∧
      ∀ (o : ByteOrder) (n v : Nat), v < 256 ^ n → fromBytes o (toBytes o v n) = v := by
  refine ⟨?_, ?_, ?_, ?_⟩
  · intro sys
    cases sys <;> exact ⟨by decide, by decide⟩
  · intro sys declared h v n
    rw [effOrder_of_ne sys declared h]
    exact toBytes_other_reverse sys v n
  · intro sys declared h w p ps
    rw [encodeElems, effOrder_of_ne sys declared h, toBytes_other_reverse sys p w]
  · intro o n v hv
    exact fromBytes_toBytes o n v hv

theorem byte_order_transform_witness :
    (ByteOrder.big ≠ ByteOrder.little ∧
        toBytes (effOrder .little (some .big)) 0xFFFE 2 = (toBytes .little 0xFFFE 2).reverse) ∧
      (0xFFFE : Nat) < 256 ^ 2 ∧
        fromBytes .big (toBytes .big 0xFFFE 2) = 0xFFFE :=
  ⟨⟨by decide, byte_order_transform.2.1 .little .big (by decide) 0xFFFE 2⟩,
   by decide, byte_order_transform.2.2.2 .big 2 0xFFFE (by decide)⟩

theorem assignFields_nil_args (fields : List FieldSpec) :
    assignFields [] fields = .ok (fields.map fun f => zeroValue f.type) := by
  induction fields with
  | nil => rfl
  | cons f rest ih =>
      have h1 : fieldValue [] f (rest.any fun g => g.name = f.name) = .ok (zeroValue f.type) := by
        unfold fieldValue
        split
        · rfl
        · rfl
      simp only [assignFields, h1, ih, List.map_cons]

/-- C6 counterexample: a record is constructed successfully although not every
field of the schema is supplied a value (the single field of `oneByteSchema`
is missing, yet construction returns a zero-initialized record). -/
theorem missing_field_counterexample :
    oneByteSchema.fields.length = 1 ∧ construct oneByteSchema [] [] = .ok [[0]] :=
  ⟨rfl, by decide⟩

/-- C6 amended: construction never fails for missing fields; every field not
supplied a value is zero-initialized (ctypes zero memory), so constructing
with no arguments at all succeeds and yields the all-zero record. -/
theorem missing_field_zero_fill (s : Schema) :
    construct s [] [] = .ok (s.fields.map fun f => zeroValue f.type) := by
  unfold construct
  simp only [List.find?_nil]
  rw [List.zip_nil_right, List.nil_append]
  exact assignFields_nil_args s.fields

theorem fieldValue_error_shape (amap : List (String × InputValue)) (f : FieldSpec)
    (sh : Bool) (e : CtorError) (h : fieldValue amap f sh = .error e) :
    e = .typeMismatch f.name := by
  unfold fieldValue at h
  split at h
  · exact absurd h (by simp)
  · split at h
    · exact absurd h (by simp)
    · split at h
      · exact absurd h (by simp)
      · simp only [Except.error.injEq] at h
        exact h.symm

theorem assignFields_not_duplicate (amap : List (String × InputValue))
    (fields : List FieldSpec) (e : String) :
    assignFields amap fields ≠ .error (.duplicateArgument e) := by
  induction fields with
  | nil => simp [assignFields]
  | cons f rest ih =>
      intro h
      simp only [assignFields] at h
      cases h1 : fieldValue amap f (rest.any fun g => g.name = f.name) with
      | error e2 =>
          rw [h1] at h
          simp only [Except.error.injEq] at h
          have := fieldValue_error_shape amap f _ e2 h1
          rw [this] at h
          exact absurd h (by simp)
      | ok v =>
          rw [h1] at h
          cases h2 : assignFields amap rest with
          | error e2 =>
              rw [h2] at h
              simp only [Except.error.injEq] at h
              rw [h] at h2
              exact ih h2
          | ok vs => rw [h2] at h; exact absurd h (by simp)

theorem zip_fst_take {α β : Type} (l1 : List α) (l2 : List β) :
    (l1.zip l2).map Prod.fst = l1.take l2.length := by
  induction l1 generalizing l2 with
  | nil => simp
  | cons a rest ih =>
      cases l2 with
      | nil => simp
      | cons b l2r => simp [List.zip_cons_cons, ih]

/-- C7: construction fails with the duplicate-argument error exactly when some
field is supplied both positionally (it is among the first `args.length` field
names) and by keyword; the failure yields no record. -/
theorem duplicate_argument_iff (s : Schema) (args : List InputValue)
    (kwargs : List (String × InputValue)) :
    (∃ e, construct s args kwargs = .error (.duplicateArgument e)) ↔
      ∃ kv ∈ kwargs, kv.1 ∈ s.fieldNames.take args.length := by
  unfold construct
  cases hfind : kwargs.find? (fun kv => (s.fieldNames.zip args).any fun pv => pv.1 = kv.1) with
  | some kv =>
      simp only [hfind]
      constructor
      · intro _
        refine ⟨kv, List.mem_of_find?_eq_some hfind, ?_⟩
        have hp := List.find?_some hfind
        simp only [List.any_eq_true, decide_eq_true_eq] at hp
        obtain ⟨pv, hpv, hpveq⟩ := hp
        rw [← zip_fst_take s.fieldNames args, ← hpveq]
        exact List.mem_map_of_mem Prod.fst hpv
      · intro _
        exact ⟨kv.1, rfl⟩
  | none =>
      simp only [hfind]
      constructor
      · intro ⟨e, he⟩
        exact absurd he (assignFields_not_duplicate _ s.fields e)
      · intro ⟨kv, hkv, hmem⟩
        have := List.find?_eq_none.mp hfind kv hkv
        simp only [List.any_eq_true, decide_eq_true_eq, not_exists] at this
        rw [← zip_fst_take s.fieldNames args] at hmem
        obtain ⟨pv, hpv, hpveq⟩ := List.mem_map.mp hmem
        exact (this pv ⟨hpv, hpveq⟩).elim

theorem decodeFields_take (o : ByteOrder) (packed : Bool) (ts : List FieldType)
    (data : List Nat) (N : Nat) :
    ∀ pos, layoutEnd packed pos ts ≤ N →
      decodeFields o packed (data.take N) pos ts = decodeFields o packed data pos ts := by
  induction ts with
  | nil => intro pos hend; rfl
  | cons t rest ih =>
      intro pos hend
      have hsub : alignUp pos (t.alignment packed) + t.size ≤ N := by
        have := layoutEnd_le packed (alignUp pos (t.alignment packed) + t.size) rest
        simp only [layoutEnd] at hend
        omega
      simp only [decodeFields]
      have hhead : List.take t.size (List.drop (alignUp pos (t.alignment packed))
          (List.take N data)) =
          List.take t.size (List.drop (alignUp pos (t.alignment packed)) data) := by
        rw [List.drop_take, List.take_take, Nat.min_eq_left (by omega)]
      rw [hhead, ih (alignUp pos (t.alignment packed) + t.size)
        (by simpa [layoutEnd] using hend)]

/-- C8: decoding fails with the buffer-too-short error exactly when the byte
sequence is shorter than the schema's total size (yielding no record), and a
longer buffer decodes identically to its first `total_size` bytes. -/
theorem buffer_too_short_iff (sys : ByteOrder) (s : Schema) (data : List Nat) :
    (from_bytes sys s data = .error .bufferTooShort ↔ data.length < s.total_size) ∧
      (s.total_size ≤ data.length →
        from_bytes sys s data = from_bytes sys s (data.take s.total_size)) := by
  constructor
  · unfold from_bytes
    by_cases hlt : data.length < s.total_size
    · simp [hlt]
    · simp [hlt]
  · intro hle
    have htlen : (data.take s.total_size).length = s.total_size := by
      simp [List.length_take]
      omega
    unfold from_bytes
    rw [if_neg (by omega), htlen, if_neg (by omega)]
    rw [decodeFields_take (s.order sys) s.packed s.fieldTypes data s.total_size 0
      (layoutEnd_le_total s)]

theorem buffer_too_short_iff_witness :
    (valueSchema (some .little)).total_size ≤ ([1, 2, 3, 4] : List Nat).length ∧
      from_bytes .little (valueSchema (some .little)) [1, 2, 3, 4] =
        from_bytes .little (valueSchema (some .little))
          (([1, 2, 3, 4] : List Nat).take (valueSchema (some .little)).total_size) :=
  ⟨by decide,
   (buffer_too_short_iff .little (valueSchema (some .little)) [1, 2, 3, 4]).2 (by decide)⟩

/-- C9 counterexample: defining a schema whose merged field sequence holds two
fields named `a` does not fail — it produces a usable schema in which both
occurrences are present (each occupying layout space), construction included. -/
theorem duplicate_name_counterexample :
    dupNameSchema.fieldNames = ["a", "a"] ∧ dupNameSchema.total_size = 2 ∧
      construct dupNameSchema [] [("a", .scalar (.intVal 5))] = .ok [[0], [5]] :=
  ⟨by decide, by decide, by decide⟩

/-- C9 amended: no field-name uniqueness check exists; schema definition is
total and the merged field sequence keeps every occurrence of a name (ancestor
occurrences plus own non-underscore annotation occurrences), the later field
shadowing the earlier one at construction time. -/
theorem duplicate_name_amended (base : Schema) (anns : List FieldSpec)
    (oo : Option ByteOrder) (op : Bool) (name : String) :
    (defineStruct base anns oo op).fieldNames.count name =
      base.fieldNames.count name +
        (((anns.filter fun f => ¬ isUnderscoreName f.name).map FieldSpec.name).count name) := by
  simp [defineStruct, resolveFields, Schema.fieldNames, List.count_append]

theorem getD_concat_length (l : List (List FieldSpec)) (x : List FieldSpec) :
    (l ++ [x]).getD l.length [] = x := by
  rw [List.getD_eq_getElem?_getD, List.getElem?_concat_length]
  rfl

theorem getD_set_ne (l : List (List FieldSpec)) (x : List FieldSpec) (i j : Nat) (h : i ≠ j) :
    (l.set i x).getD j [] = l.getD j [] := by
  rw [List.getD_eq_getElem?_getD, List.getElem?_set_ne h, ← List.getD_eq_getElem?_getD]

theorem getD_set_self (l : List (List FieldSpec)) (x : List FieldSpec) (i : Nat)
    (h : i < l.length) :
    (l.set i x).getD i [] = x := by
  rw [List.getD_eq_getElem?_getD, List.getElem?_set_self h]
  rfl

theorem getD_append_left (l l2 : List (List FieldSpec)) (i : Nat) (h : i < l.length) :
    (l ++ l2).getD i [] = l.getD i [] := by
  rw [List.getD_eq_getElem?_getD, List.getElem?_append_left h, ← List.getD_eq_getElem?_getD]

theorem defineDerivedFields_read (st : FieldStore) (baseRef : Nat) (anns : List FieldSpec) :
    (∀ i, i < st.lists.length →
        ((defineDerivedFields st baseRef anns).1).read i = st.read i) ∧
      (defineDerivedFields st baseRef anns).2 = st.lists.length ∧
      ((defineDerivedFields st baseRef anns).1).lists.length = st.lists.length + 1 ∧
      ((defineDerivedFields st baseRef anns).1).read st.lists.length =
        st.read baseRef ++ anns.filter (fun f => ¬ isUnderscoreName f.name) := by
  refine ⟨?_, rfl, ?_, ?_⟩
  · intro i hi
    show ((st.lists ++ [st.read baseRef]).set st.lists.length _).getD i [] = st.read i
    rw [getD_set_ne _ _ _ _ (by omega), getD_append_left _ _ _ hi]
    rfl
  · show ((st.lists ++ [st.read baseRef]).set st.lists.length _).length = st.lists.length + 1
    simp
  · show ((st.lists ++ [st.read baseRef]).set st.lists.length _).getD st.lists.length [] = _
    rw [getD_set_self _ _ _ (by simp)]
    show FieldStore.read _ st.lists.length ++ _ = _
    show (st.lists ++ [st.read baseRef]).getD st.lists.length [] ++ _ = _
    rw [getD_concat_length]

/-- C10: defining a derived class copies the ancestor's `_fields_` list
(`list(b._fields_)`) instead of extending it in place: every list already in
the store — the ancestor's and any sibling's — is unchanged, the new class's
list is the ancestor's contents plus the new annotations, and defining a
second sibling afterwards still leaves the first sibling's list intact. -/
theorem ancestor_fields_unchanged (st : FieldStore) (baseRef : Nat) (anns : List FieldSpec)
    (hbase : baseRef < st.lists.length) :
    (∀ i, i < st.lists.length →
        ((defineDerivedFields st baseRef anns).1).read i = st.read i) ∧
      ((defineDerivedFields st baseRef anns).1).read (defineDerivedFields st baseRef anns).2 =
        st.read baseRef ++ anns.filter (fun f => ¬ isUnderscoreName f.name) ∧
      ∀ anns2,
        ((defineDerivedFields (defineDerivedFields st baseRef anns).1 baseRef anns2).1).read
            (defineDerivedFields st baseRef anns).2 =
          st.read baseRef ++ anns.filter (fun f => ¬ isUnderscoreName f.name) := by
  obtain ⟨hframe, href, hlen, hnew⟩ := defineDerivedFields_read st baseRef anns
  refine ⟨hframe, by rw [href]; exact hnew, ?_⟩
  intro anns2
  obtain ⟨hframe2, _, _, _⟩ :=
    defineDerivedFields_read (defineDerivedFields st baseRef anns).1 baseRef anns2
  rw [href]
  rw [hframe2 st.lists.length (by omega), hnew]

theorem ancestor_fields_unchanged_witness :
    (0:Nat) < (FieldStore.mk [[⟨"common1", .scalar .uint32_t⟩]]).lists.length ∧
      ((defineDerivedFields (FieldStore.mk [[⟨"common1", .scalar .uint32_t⟩]]) 0
          [⟨"special1", .scalar .uint32_t⟩]).1).read 0 = [⟨"common1", .scalar .uint32_t⟩] :=
  ⟨by decide,
   (ancestor_fields_unchanged (FieldStore.mk [[⟨"common1", .scalar .uint32_t⟩]]) 0
     [⟨"special1", .scalar .uint32_t⟩] (by decide)).1 0 (by decide)⟩

theorem find?_append_or {α : Type} (p : α → Bool) (l1 l2 : List α) :
    (l1 ++ l2).find? p = ((l1.find? p).orElse fun _ => l2.find? p) := by
  induction l1 with
  | nil => rfl
  | cons a rest ih =>
      simp only [List.cons_append, List.find?]
      cases p a <;> simp [ih]

theorem lookupArg_cons_ne (k : String) (v : InputValue) (m : List (String × InputValue))
    (name : String) (h : name ≠ k) :
    lookupArg ((k, v) :: m) name = lookupArg m name := by
  unfold lookupArg
  rw [List.reverse_cons, find?_append_or]
  have h2 : List.find? (fun kv => kv.1 = name) [(k, v)] = none := by
    have hkn : decide (k = name) = false := decide_eq_false fun e => h e.symm
    simp [List.find?, hkn]
  rw [h2]
  cases List.find? (fun kv => kv.1 = name) m.reverse <;> rfl

theorem lookupArg_cons_self (k : String) (v : InputValue) (m : List (String × InputValue))
    (h : k ∉ m.map Prod.fst) :
    lookupArg ((k, v) :: m) k = some v := by
  unfold lookupArg
  rw [List.reverse_cons, find?_append_or]
  have h1 : List.find? (fun kv => kv.1 = k) m.reverse = none := by
    rw [List.find?_eq_none]
    intro kv hkv
    simp only [decide_eq_true_eq]
    intro heq
    exact h (heq ▸ List.mem_map_of_mem Prod.fst (List.mem_reverse.mp hkv))
  rw [h1]
  simp [List.find?]

theorem assignFields_congr (amap1 amap2 : List (String × InputValue))
    (fields : List FieldSpec)
    (h : ∀ f ∈ fields, lookupArg amap1 f.name = lookupArg amap2 f.name) :
    assignFields amap1 fields = assignFields amap2 fields := by
  induction fields with
  | nil => rfl
  | cons f rest ih =>
      have hf : fieldValue amap1 f (rest.any fun g => g.name = f.name) =
          fieldValue amap2 f (rest.any fun g => g.name = f.name) := by
        unfold fieldValue
        rw [h f (List.mem_cons_self f rest)]
      simp only [assignFields, hf, ih fun g hg => h g (List.mem_cons_of_mem f hg)]

theorem assignFields_zip (fields : List FieldSpec) (args : List InputValue)
    (hnodup : (fields.map FieldSpec.name).Nodup)
    (hlen : args.length = fields.length)
    (hstore : ∀ pair ∈ fields.zip args, (storeValue pair.1.type pair.2).isSome = true) :
    ∃ r, assignFields ((fields.map FieldSpec.name).zip args) fields = .ok r ∧
      List.Forall₂ (fun pair v => storeValue pair.1.type pair.2 = some v)
        (fields.zip args) r := by
  induction fields generalizing args with
  | nil => exact ⟨[], rfl, by simp⟩
  | cons f rest ih =>
      cases args with
      | nil => simp at hlen
      | cons a args2 =>
          simp only [List.map_cons, List.nodup_cons] at hnodup
          have hnotin : f.name ∉ rest.map FieldSpec.name := hnodup.1
          have hnodup2 : (rest.map FieldSpec.name).Nodup := hnodup.2
          have hlen2 : args2.length = rest.length := by simpa using hlen
          have hsh : (rest.any fun g => g.name = f.name) = false := by
            simp only [List.any_eq_false, decide_eq_true_eq]
            intro g hg heq
            exact hnotin (heq ▸ List.mem_map_of_mem FieldSpec.name hg)
          have hlook : lookupArg ((f.name, a) :: (rest.map FieldSpec.name).zip args2) f.name =
              some a := by
            refine lookupArg_cons_self _ _ _ ?_
            intro hmem
            rw [zip_fst_take] at hmem
            exact hnotin (List.take_subset _ _ hmem)
          have hstoref := hstore (f, a) (by simp [List.zip_cons_cons])
          obtain ⟨sv, hsv⟩ := Option.isSome_iff_exists.mp hstoref
          have hsv2 : storeValue f.type a = some sv := hsv
          have hfv : fieldValue ((f.name, a) :: (rest.map FieldSpec.name).zip args2) f false =
              .ok sv := by
            unfold fieldValue
            rw [if_neg (by simp)]
            rw [hlook]
            simp only [hsv2]
          have hcongr : assignFields ((f.name, a) :: (rest.map FieldSpec.name).zip args2) rest =
              assignFields ((rest.map FieldSpec.name).zip args2) rest := by
            refine assignFields_congr _ _ rest fun g hg => ?_
            refine lookupArg_cons_ne _ _ _ _ ?_
            intro heq
            exact hnotin (heq ▸ List.mem_map_of_mem FieldSpec.name hg)
          obtain ⟨r2, hr2, hforall⟩ := ih args2 hnodup2 hlen2
            fun pair hp => hstore pair (by simp [List.zip_cons_cons, hp])
          refine ⟨sv :: r2, ?_, ?_⟩
          · simp only [List.map_cons, List.zip_cons_cons, assignFields, hsh, hfv, hcongr, hr2]
          · exact List.Forall₂.cons hsv hforall

/-- C5: a derived schema's resolved field sequence is exactly the ancestor's
fields (in order) followed by its own new fields in declaration order, and
constructing a record of the derived schema with all-positional arguments
stores the i-th argument into the i-th field of that sequence. -/
theorem inheritance_positional (base : Schema) (anns : List FieldSpec)
    (ownOrder : Option ByteOrder) (ownPacked : Bool)
    (hanns : ∀ f ∈ anns, isUnderscoreName f.name = false)
    (args : List InputValue)
    (hnodup : ((base.fields ++ anns).map FieldSpec.name).Nodup)
    (hlen : args.length = (base.fields ++ anns).length)
    (hstore : ∀ pair ∈ (base.fields ++ anns).zip args,
      (storeValue pair.1.type pair.2).isSome = true) :
    (defineStruct base anns ownOrder ownPacked).fields = base.fields ++ anns ∧
      ∃ r, construct (defineStruct base anns ownOrder ownPacked) args [] = .ok r ∧
        List.Forall₂ (fun pair v => storeValue pair.1.type pair.2 = some v)
          ((base.fields ++ anns).zip args) r := by
  have hfields : (defineStruct base anns ownOrder ownPacked).fields = base.fields ++ anns := by
    simp only [defineStruct, resolveFields]
    congr 1
    refine List.filter_eq_self.mpr fun f hf => ?_
    simp [hanns f hf]
  refine ⟨hfields, ?_⟩
  obtain ⟨r, hr, hforall⟩ := assignFields_zip (base.fields ++ anns) args hnodup hlen hstore
  refine ⟨r, ?_, hforall⟩
  unfold construct
  simp only [List.find?_nil]
  rw [List.append_nil]
  show assignFields ((defineStruct base anns ownOrder ownPacked).fieldNames.zip args)
    (defineStruct base anns ownOrder ownPacked).fields = .ok r
  rw [Schema.fieldNames, hfields]
  exact hr

theorem inheritance_positional_witness :
    (defineStruct
        ⟨[⟨"common1", .scalar .uint32_t⟩, ⟨"common2", .scalar .uint32_t⟩], some .little, false⟩
        [⟨"special1", .scalar .uint32_t⟩] none false).fields =
      [⟨"common1", .scalar .uint32_t⟩, ⟨"common2", .scalar .uint32_t⟩] ++
        [⟨"special1", .scalar .uint32_t⟩] ∧
      ∃ r, construct (defineStruct
          ⟨[⟨"common1", .scalar .uint32_t⟩, ⟨"common2", .scalar .uint32_t⟩], some .little, false⟩
          [⟨"special1", .scalar .uint32_t⟩] none false)
          [.scalar (.intVal 1), .scalar (.intVal 2), .scalar (.intVal 3)] [] = .ok r ∧
        List.Forall₂ (fun (pair : FieldSpec × InputValue) (v : StoredValue) =>
            storeValue pair.1.type pair.2 = some v)
          ((([⟨"common1", .scalar .uint32_t⟩, ⟨"common2", .scalar .uint32_t⟩] : List FieldSpec) ++
              ([⟨"special1", .scalar .uint32_t⟩] : List FieldSpec)).zip
            ([.scalar (.intVal 1), .scalar (.intVal 2), .scalar (.intVal 3)] :
              List InputValue)) r :=
  inheritance_positional
    ⟨[⟨"common1", .scalar .uint32_t⟩, ⟨"common2", .scalar .uint32_t⟩], some .little, false⟩
    [⟨"special1", .scalar .uint32_t⟩] none false (by decide)
    [.scalar (.intVal 1), .scalar (.intVal 2), .scalar (.intVal 3)]
    (by decide) (by decide) (by decide)

theorem layoutEnd_packed_sum (ts : List FieldType) :
    ∀ pos, layoutEnd true pos ts = pos + (ts.map FieldType.size).sum := by
  induction ts with
  | nil => intro pos; simp [layoutEnd]
  | cons t rest ih =>
      intro pos
      have h1 : t.alignment true = 1 := rfl
      simp only [layoutEnd, h1, alignUp_one, List.map_cons, List.sum_cons, ih]
      omega

theorem total_size_packed_sum (s : Schema) (h : s.packed = true) :
    s.total_size = (s.fieldTypes.map FieldType.size).sum := by
  unfold Schema.total_size
  rw [h, maxAlignment_packed, alignUp_one, layoutEnd_packed_sum]
  omega

theorem offsetsFrom_packed_cons (t : FieldType) (rest : List FieldType) (pos : Nat) :
    offsetsFrom true pos (t :: rest) = pos :: offsetsFrom true (pos + t.size) rest := by
  have h1 : t.alignment true = 1 := rfl
  simp [offsetsFrom, h1, alignUp_one]

theorem testSchema_padding (sys : ByteOrder) (r : Record)
    (hWF : RecordWF (testSchema false) r) :
    ((to_bytes sys (testSchema false) r).drop 10).take 2 = [0, 0] := by
  obtain ⟨hlen, hpairs⟩ := hWF
  have hlen5 : r.length = 5 := by simpa [testSchema] using hlen
  rcases r with _ | ⟨v0, _ | ⟨v1, _ | ⟨v2, _ | ⟨v3, _ | ⟨v4, tail⟩⟩⟩⟩⟩ <;>
    simp only [List.length_cons, List.length_nil] at hlen5 <;> try omega
  have htail : tail = [] := List.length_eq_zero.mp (by omega)
  subst htail
  have hv0 : ValueWF (.scalar .uint32_t) v0 :=
    hpairs (FieldType.scalar .uint32_t, v0) (by simp [testSchema, Schema.fieldTypes])
  have hv1 : ValueWF (.array .uint8_t 4) v1 :=
    hpairs (FieldType.array .uint8_t 4, v1) (by simp [testSchema, Schema.fieldTypes])
  have hv2 : ValueWF (.scalar .uint16_t) v2 :=
    hpairs (FieldType.scalar .uint16_t, v2) (by simp [testSchema, Schema.fieldTypes])
  have hl0 : v0.length = 1 := hv0.1
  have hl1 : v1.length = 4 := hv1.1
  have hl2 : v2.length = 1 := hv2.1
  have henc : to_bytes sys (testSchema false) [v0, v1, v2, v3, v4] =
      (encodeElems (effOrder sys (some .little)) 4 v0 ++
          (encodeElems (effOrder sys (some .little)) 1 v1 ++
            encodeElems (effOrder sys (some .little)) 2 v2)) ++
        ([0, 0] ++ (encodeElems (effOrder sys (some .little)) 4 v3 ++
          encodeElems (effOrder sys (some .little)) 8 v4)) := by
    simp [to_bytes, testSchema, Schema.fieldTypes, Schema.order, Schema.total_size,
      encodeFields, layoutEnd, maxAlignment, alignUp, FieldType.alignment, FieldType.size,
      FieldType.elemSize, FieldType.elemKind, FieldType.count, PrimKind.size,
      PrimKind.bitwidth, List.append_assoc]
  have hA : (encodeElems (effOrder sys (some .little)) 4 v0 ++
      (encodeElems (effOrder sys (some .little)) 1 v1 ++
        encodeElems (effOrder sys (some .little)) 2 v2)).length = 10 := by
    simp [encodeElems_length, hl0, hl1, hl2]
  rw [henc, List.drop_left' hA, List.take_left' (show ([0, 0] : List Nat).length = 2 from rfl)]

/-- C3: for the test schema `{uint32_t, uint8_t[4], uint16_t, float32_t,
float64_t}`, natural packing places `value` at offset 8 with no preceding
padding and inserts two zero-encoded padding bytes before `fvalue` (offsets
0, 4, 8, 12, 16; total size 24), while packed mode is byte-contiguous with
each offset the previous field's end and total size the exact sum of the
field sizes (offsets 0, 4, 8, 10, 14; total size 22). -/
theorem layout_packed_natural :
    ((testSchema false).offsets = [0, 4, 8, 12, 16] ∧ (testSchema false).total_size = 24) ∧
      ((testSchema true).offsets = [0, 4, 8, 10, 14] ∧ (testSchema true).total_size = 22) ∧
      (∀ s : Schema, s.packed = true →
        s.total_size = (s.fieldTypes.map FieldType.size).sum ∧
          ∀ (t : FieldType) (rest : List FieldType) (pos : Nat),
            offsetsFrom true pos (t :: rest) = pos :: offsetsFrom true (pos + t.size) rest) ∧
      ∀ (sys : ByteOrder) (r : Record), RecordWF (testSchema false) r →
        ((to_bytes sys (testSchema false) r).drop 10).take 2 = [0, 0] := by
  refine ⟨⟨by decide, by decide⟩, ⟨by decide, by decide⟩, ?_, testSchema_padding⟩
  intro s h
  exact ⟨total_size_packed_sum s h, offsetsFrom_packed_cons⟩

theorem layout_packed_natural_witness :
    RecordWF (testSchema false) [[0], [0, 0, 0, 0], [0], [0], [0]] ∧
      ((to_bytes .little (testSchema false)
          [[0], [0, 0, 0, 0], [0], [0], [0]]).drop 10).take 2 = [0, 0] :=
  ⟨by decide, layout_packed_natural.2.2.2 .little [[0], [0, 0, 0, 0], [0], [0], [0]] (by decide)⟩
